import Mathlib

/-!
Shallow embedding of `src/remove_background_batch_iset_gen.py`.

Paths are modelled as lists of components (a component is a list of
characters), mirroring `pathlib.PurePath.parts`.  The filesystem is a flat
record of file entries (path plus an abstract content identifier) and
directory paths.  External collaborators (PIL decoding, the rembg backend,
OS errors raised by `mkdir` and `save`) are an environment of fallible
functions, so that every way the Python code can raise is represented by an
`Except`/`Option` result of the environment.
-/

namespace RB

/-- A path component (file or directory name), as its character list. -/
abbrev FName := List Char

/-- A filesystem path, as its list of components (`pathlib` `parts`). -/
abbrev FPath := List FName

/-- Shorthand turning a string literal into a component. -/
def pc (s : String) : FName := s.data

/-- Index (from the front) of the last '.' in a character list, scanning the
reversed list: this is `str.rfind('.')` restricted to a found result. -/
def findDot : List Char → Option Nat
  | [] => none
  | c :: cs => if c = '.' then some 0 else (findDot cs).map (· + 1)

/-- Position of the last dot of a name, counted from the front
(`name.rfind('.')` when a dot exists). -/
def lastDotPos (n : FName) : Option Nat :=
  (findDot n.reverse).map (fun j => n.length - 1 - j)

/-- The split index used by `pathlib`'s `suffix`/`stem`: the position `i` of
the last dot provided `0 < i < len(name) - 1`; otherwise the name has no
suffix. -/
def splitIdx (n : FName) : Option Nat :=
  match lastDotPos n with
  | some i => if 0 < i ∧ i < n.length - 1 then some i else none
  | none => none

/-- `PurePath.stem` of a single name: the name without its last suffix. -/
def stemOf (n : FName) : FName :=
  match splitIdx n with
  | some i => n.take i
  | none => n

/-- `PurePath.suffix` of a single name: the last extension including the
leading dot, or empty when there is none. -/
def suffixOf (n : FName) : FName :=
  match splitIdx n with
  | some i => n.drop i
  | none => []

/-- `PurePath.with_suffix(s)` acting on a single name. -/
def withSuffixName (n s : FName) : FName := stemOf n ++ s

/-- ASCII lowering of a name, modelling `str.lower()`. -/
def lowerName (n : FName) : FName := n.map Char.toLower

/-- The script's `SUPPORTED_EXTS` set. -/
def SUPPORTED_EXTS : List FName :=
  [pc ".jpg", pc ".jpeg", pc ".png", pc ".bmp", pc ".tif", pc ".tiff", pc ".webp"]

/-- Last component of a path (`PurePath.name`), empty for the empty path. -/
def lastName (p : FPath) : FName := p.getLastD []

/-- `PurePath.suffix` of a path. -/
def pathSuffix (p : FPath) : FName := suffixOf (lastName p)

/-- `PurePath.with_suffix(s)` on a path: replace the suffix of the last
component. -/
def withSuffixPath (p : FPath) (s : FName) : FPath :=
  p.dropLast ++ [withSuffixName (lastName p) s]

/-- `PurePath.stem` of a path. -/
def pathStem (p : FPath) : FName := stemOf (lastName p)

/-- `p.suffix.lower() in SUPPORTED_EXTS`, the discovery filter of
`list_images`. -/
def suffOK (p : FPath) : Bool := decide (lowerName (pathSuffix p) ∈ SUPPORTED_EXTS)

/-- `input_file.relative_to(input_dir)` (meaningful when `input_dir`'s parts
lead `input_file`'s). -/
def relative_to (p root : FPath) : FPath := p.drop root.length

/-- Does `r` lead `p` as a component sequence (`r` is an initial segment)? -/
def leadsPath (r p : FPath) : Bool := decide (p.take r.length = r)

/-- `rglob("*")` reach: `p` is a strict descendant of `root`. -/
def underRoot (root p : FPath) : Bool := leadsPath root p && decide (p ≠ root)

/-- `iterdir()` reach: `p` is an immediate child of `root`. -/
def childOf (root p : FPath) : Bool :=
  leadsPath root p && decide (p.length = root.length + 1)

/-- Python's `sorted(files)`: a stable sort of the paths under the
lexicographic order on component lists (`pathlib` compares paths by their
parts tuple; components compare as strings, character by character). The
order is Mathlib's `Lex`-based linear order on `List (List Char)`. -/
def psort (l : List FPath) : List FPath := List.insertionSort (· ≤ ·) l

/-- Filesystem model: file entries (path and abstract content id) and
directory paths. -/
structure FS where
  files : List (FPath × Nat)
  dirs : List FPath
  deriving DecidableEq, Repr

/-- The paths of the regular files of `fs`. -/
def FS.fileNames (fs : FS) : List FPath := fs.files.map Prod.fst

/-- `Path.exists()`: true for a file or a directory entry. -/
def FS.existsPath (fs : FS) (p : FPath) : Prop :=
  p ∈ fs.fileNames ∨ p ∈ fs.dirs

instance (fs : FS) (p : FPath) : Decidable (fs.existsPath p) := by
  unfold FS.existsPath; infer_instance

/-- Content of the regular file at `p`, if any. -/
def lookupFile (fs : FS) (p : FPath) : Option Nat :=
  (fs.files.find? (fun e => decide (e.1 = p))).map Prod.snd

/-- Create or overwrite the regular file at `p` with content `c`. -/
def addFile (fs : FS) (p : FPath) (c : Nat) : FS :=
  { fs with files := (p, c) :: fs.files.filter (fun e => decide (e.1 ≠ p)) }

/-- Record a single directory (no duplicates). -/
def addDir (fs : FS) (d : FPath) : FS :=
  if d ∈ fs.dirs then fs else { fs with dirs := d :: fs.dirs }

/-- All nonempty initial segments of a path: the chain of directories
`mkdir(parents=True)` creates. -/
def ancestorsOf (p : FPath) : List FPath :=
  (List.range p.length).map (fun i => p.take (i + 1))

/-- `path.mkdir(parents=True, exist_ok=True)` on a success. -/
def mkdirAll (fs : FS) (p : FPath) : FS := (ancestorsOf p).foldl addDir fs

/-- `output_file.parent.mkdir(parents=True, exist_ok=True)` on a success. -/
def mkdirParents (fs : FS) (dest : FPath) : FS := mkdirAll fs dest.dropLast

/-- `list_images` (lines 16-21): in recursive mode `rglob("*")` filtered on
the lowered suffix only (note: no `is_file()` check there), in non-recursive
mode `iterdir()` filtered on `is_file()` and the lowered suffix; the result
is sorted. -/
def list_images (fs : FS) (input_dir : FPath) (recursive : Bool) : List FPath :=
  if recursive then
    psort ((fs.fileNames ++ fs.dirs).filter (fun p => underRoot input_dir p && suffOK p))
  else
    psort (fs.fileNames.filter (fun p => childOf input_dir p && suffOK p))

/-- `output_path_for` (lines 23-28). -/
def output_path_for (input_file input_dir output_dir : FPath)
    (keep_structure : Bool) : FPath :=
  if keep_structure then
    let rel := withSuffixPath (relative_to input_file input_dir) (pc ".png")
    withSuffixPath (output_dir ++ rel) (pc ".png")
  else
    output_dir ++ [pathStem input_file ++ pc ".png"]

/-- An in-memory PIL image: its pixel dimensions and its mode string. -/
structure Image where
  width : Nat
  height : Nat
  mode : String
  deriving DecidableEq, Repr

/-- The bimodal return of `rembg.remove`: raw encoded bytes (abstract id) or
a decoded image. -/
inductive RemovalOut where
  | raw (bs : Nat)
  | img (im : Image)
  deriving DecidableEq, Repr

/-- The conditional conversion of lines 41-42. -/
def toRGBA (im : Image) : Image :=
  if im.mode = "RGBA" then im else { im with mode := "RGBA" }

/-- The unconditional `.convert("RGBA")` of lines 46 and 48. -/
def forceRGBA (im : Image) : Image := { im with mode := "RGBA" }

/-- Environment of external collaborators and OS failure oracles; every
fallible operation of the script appears here with its failure shape. -/
structure Env where
  /-- `Image.open` on the content of an existing source file. -/
  decode : Nat → Except String Image
  /-- `Image.open(BytesIO(out))` on raw backend bytes. -/
  decodeBytes : Nat → Except String Image
  /-- `rembg.remove(im, session=session)`. -/
  removeFn : Image → Except String RemovalOut
  /-- PNG encoding of the saved image, yielding abstract file content. -/
  encodePNG : Image → Nat
  /-- OS failure oracle for `mkdir(parents=True, exist_ok=True)`. -/
  mkdirFail : FPath → Option String
  /-- OS failure oracle for `out_im.save(output_file, ...)`. -/
  saveFail : FPath → Image → Option String
  /-- `new_session("isnet-general-use")`. -/
  newSession : Except String Unit

/-- `Image.open(input_file)`: missing file raises, else the decoder runs. -/
def openImage (env : Env) (fs : FS) (src : FPath) : Except String Image :=
  match lookupFile fs src with
  | none => Except.error "[Errno 2] No such file or directory"
  | some c => env.decode c

/-- `im.thumbnail((max_size, max_size), Image.LANCZOS)` dimension
computation, translated from PIL's `Image.thumbnail` with exact rational
arithmetic in place of Python floats. -/
def roundAspect (v : ℚ) (key : ℤ → ℚ) : ℤ :=
  max (if key ⌊v⌋ ≤ key ⌈v⌉ then ⌊v⌋ else ⌈v⌉) 1

/-- New `(width, height)` of `thumbnail((D, D))`: unchanged when both fit,
else the aspect-preserving rounded downscale. -/
def thumbnailDims (w h D : Nat) : Nat × Nat :=
  if D ≥ w ∧ D ≥ h then (w, h)
  else
    if (D : ℚ) / (D : ℚ) ≥ (w : ℚ) / (h : ℚ) then
      ((roundAspect ((D : ℚ) * ((w : ℚ) / (h : ℚ)))
          (fun n => |(w : ℚ) / (h : ℚ) - (n : ℚ) / (D : ℚ)|)).toNat, D)
    else
      (D, (roundAspect ((D : ℚ) / ((w : ℚ) / (h : ℚ)))
            (fun n => if n = 0 then 0 else |(w : ℚ) / (h : ℚ) - (D : ℚ) / (n : ℚ)|)).toNat)

/-- Lines 38-39: `if max_size: im.thumbnail((max_size, max_size), LANCZOS)`
(`if max_size:` is Python truthiness, so `0` also skips the resize). -/
def applyThumbnail (msz : Option Nat) (im : Image) : Image :=
  match msz with
  | none => im
  | some D =>
      if D ≠ 0 then
        { im with width := (thumbnailDims im.width im.height D).1,
                  height := (thumbnailDims im.width im.height D).2 }
      else im

/-- Lines 45-48: normalize the bimodal backend return to a decoded RGBA
image. -/
def normalizeOut (env : Env) : RemovalOut → Except String Image
  | .raw b =>
      match env.decodeBytes b with
      | .error e => .error e
      | .ok ib => .ok (forceRGBA ib)
  | .img i => .ok (forceRGBA i)

/-- Instrumented result of `process_one`: the returned tuple, the filesystem
after the call, the images handed to the backend, and whether the
idempotency skip fired. -/
structure POut where
  res : FPath × Bool × Option String
  fs : FS
  invoked : List Image
  skipped : Bool
  deriving DecidableEq, Repr

/-- Body of the `try:` block of `process_one` past the skip check
(lines 35-52), with every raise surfaced as the `Failure` tuple the
`except` handler would build. -/
def processBody (env : Env) (fs : FS) (src dest : FPath) (msz : Option Nat) : POut :=
  match env.mkdirFail dest.dropLast with
  | some e => ⟨(src, false, some e), fs, [], false⟩
  | none =>
    match openImage env (mkdirParents fs dest) src with
    | .error e => ⟨(src, false, some e), mkdirParents fs dest, [], false⟩
    | .ok im0 =>
      match env.removeFn (toRGBA (applyThumbnail msz im0)) with
      | .error e => ⟨(src, false, some e), mkdirParents fs dest,
          [toRGBA (applyThumbnail msz im0)], false⟩
      | .ok o =>
        match normalizeOut env o with
        | .error e => ⟨(src, false, some e), mkdirParents fs dest,
            [toRGBA (applyThumbnail msz im0)], false⟩
        | .ok outIm =>
          match env.saveFail dest outIm with
          | some e => ⟨(src, false, some e), mkdirParents fs dest,
              [toRGBA (applyThumbnail msz im0)], false⟩
          | none => ⟨(src, true, none),
              addFile (mkdirParents fs dest) dest (env.encodePNG outIm),
              [toRGBA (applyThumbnail msz im0)], false⟩

/-- `process_one` (lines 30-55). -/
def processOne (env : Env) (fs : FS) (src dest : FPath) (force : Bool)
    (msz : Option Nat) : POut :=
  if fs.existsPath dest ∧ force = false then
    ⟨(src, true, none), fs, [], true⟩
  else
    processBody env fs src dest msz

/-- The loop of `main` over the discovered files (lines 91-107): each item is
submitted once and yields exactly one result tuple; the thread pool is
modelled by sequential execution, which preserves the per-item results and
the aggregate counts. -/
def runBatch (env : Env) (force : Bool) (msz : Option Nat) :
    FS → List (FPath × FPath) → FS × List POut
  | fs, [] => (fs, [])
  | fs, it :: rest =>
      let r := processOne env fs it.1 it.2 force msz
      let rec2 := runBatch env force msz r.fs rest
      (rec2.1, r :: rec2.2)

/-- The `ok` counter of `main`. -/
def countOk (rs : List POut) : Nat := rs.countP (fun r => r.res.2.1)

/-- The `fails` counter of `main`. -/
def countFail (rs : List POut) : Nat := rs.countP (fun r => !r.res.2.1)

/-- How a run of `main` ends: `parser.error` on a bad input directory, an
uncaught exception from the output `mkdir`, the caught `new_session` failure,
the empty-discovery early return, or a completed batch (carrying the
discovered files, both counters and the per-item results). -/
inductive MainResult where
  | badInput
  | uncaughtMkdir (e : String)
  | sessionFail (e : String)
  | noImages
  | done (files : List FPath) (ok fails : Nat) (rs : List POut)
  deriving DecidableEq, Repr

/-- `main` (lines 57-109): input-directory check, output `mkdir`, session
initialization, discovery, batch run, aggregation. -/
def main (env : Env) (fs : FS) (input_dir output_dir : FPath)
    (recursive keep_structure force : Bool) (msz : Option Nat) : MainResult × FS :=
  if ¬(fs.existsPath input_dir ∧ input_dir ∈ fs.dirs) then (.badInput, fs)
  else
    match env.mkdirFail output_dir with
    | some e => (.uncaughtMkdir e, fs)
    | none =>
      let fsA := mkdirAll fs output_dir
      match env.newSession with
      | .error e => (.sessionFail e, fsA)
      | .ok _ =>
        let files := list_images fsA input_dir recursive
        if files = [] then (.noImages, fsA)
        else
          let items := files.map
            (fun f => (f, output_path_for f input_dir output_dir keep_structure))
          let out := runBatch env force msz fsA items
          (.done files (countOk out.2) (countFail out.2) out.2, out.1)

/-! ### Concrete inputs used by the witness theorems -/

/-- An environment where every collaborator succeeds and the backend returns
raw bytes. -/
def envOk : Env where
  decode _ := .ok ⟨3, 2, "RGB"⟩
  decodeBytes _ := .ok ⟨3, 2, "P"⟩
  removeFn _ := .ok (.raw 7)
  encodePNG _ := 99
  mkdirFail _ := none
  saveFail _ _ := none
  newSession := .ok ()

/-- An environment where decoding, the backend and the session all fail. -/
def envBad : Env where
  decode _ := .error "cannot identify image file"
  decodeBytes _ := .error "cannot identify image file"
  removeFn _ := .error "backend down"
  encodePNG _ := 99
  mkdirFail _ := none
  saveFail _ _ := none
  newSession := .error "model not found"

/-- An environment decoding every source to an 8x2 image, with a failing
backend (the invocation is still recorded). -/
def envWide : Env where
  decode _ := .ok ⟨8, 2, "RGB"⟩
  decodeBytes _ := .error "x"
  removeFn _ := .error "backend down"
  encodePNG _ := 99
  mkdirFail _ := none
  saveFail _ _ := none
  newSession := .ok ()

/-- Witness source path `in/a.jpg`. -/
def srcW : FPath := [pc "in", pc "a.jpg"]

/-- Witness destination path `out/a.png`. -/
def destW : FPath := [pc "out", pc "a.png"]

/-- A filesystem where the destination `out/a.png` already exists as a file
and the source is absent. -/
def fsSkip : FS := ⟨[(destW, 5)], [[pc "in"], [pc "out"]]⟩

/-- A filesystem where the path `out/a.png` exists as a directory, not as a
file. -/
def fsDir : FS := ⟨[], [[pc "in"], [pc "out"], destW]⟩

/-- A filesystem with input root `in` holding the single source `in/a.jpg`,
and a separate directory named `in/d.png`. -/
def fsDisc : FS := ⟨[(srcW, 1)], [[pc "in"], [pc "in", pc "d.png"]]⟩

/-- Witness source path `in/sub/a.jpg`, one level deep. -/
def srcM : FPath := [pc "in", pc "sub", pc "a.jpg"]

/-- Witness input root `in`. -/
def inW : FPath := [pc "in"]

/-- Witness output root `out`. -/
def outW : FPath := [pc "out"]

/-- A filesystem holding the single source `in/a.jpg` and no outputs. -/
def fsProc : FS := ⟨[(srcW, 1)], [[pc "in"]]⟩

/-- The decoded 8x2 witness image. -/
def im0W7 : Image := Image.mk 8 2 "RGB"

/-- The image the backend receives in the C7 witness run: the 8x2 source
resized under bound 4 and normalized. -/
def imgW7 : Image := toRGBA (applyThumbnail (some 4) im0W7)

/-- The batch-aggregation invariant, read off a finished `main` run: one
result per discovered file and `ok + fails` equal to the discovered count.
Runs that end before the batch (configuration error, no images) carry no
counters. -/
def C2Post : MainResult × FS → Prop
  | (.done files ok fails rs, _) =>
      rs.length = files.length ∧ ok + fails = files.length
  | _ => True

/-- Conclusion of the persistence claim: a processed (non-skipped)
successful item invoked the backend on exactly one image, normalized the
backend's result — raw bytes decoded first, an in-memory image taken as is —
to a decoded RGBA image, and wrote its PNG encoding at exactly the given
destination path. -/
def C8Post (env : Env) (fs : FS) (src dest : FPath) (force : Bool)
    (msz : Option Nat) : Prop :=
  ∃ im2 o outIm,
    (processOne env fs src dest force msz).invoked = [im2] ∧
    env.removeFn im2 = .ok o ∧
    normalizeOut env o = .ok outIm ∧
    outIm.mode = "RGBA" ∧
    (∀ b, o = .raw b → ∃ ib, env.decodeBytes b = .ok ib ∧ outIm = forceRGBA ib) ∧
    (∀ i, o = .img i → outIm = forceRGBA i) ∧
    (processOne env fs src dest force msz).fs =
      addFile (mkdirParents fs dest) dest (env.encodePNG outIm) ∧
    (dest, env.encodePNG outIm) ∈ (processOne env fs src dest force msz).fs.files

/-- Conclusion of the per-item error-isolation claim: `process_one` reports
the source path back, a success carries no message, and a failure carries
exactly the message of the step (directory creation, decode, transform,
result decode, write) that failed. -/
def C1Concl (env : Env) (fs : FS) (src dest : FPath) (force : Bool)
    (msz : Option Nat) : Prop :=
  (processOne env fs src dest force msz).res.1 = src ∧
  ((processOne env fs src dest force msz).res.2.1 = true →
    (processOne env fs src dest force msz).res.2.2 = none) ∧
  ((processOne env fs src dest force msz).res.2.1 = false →
    ∃ e, (processOne env fs src dest force msz).res.2.2 = some e ∧
    (env.mkdirFail dest.dropLast = some e ∨
     openImage env (mkdirParents fs dest) src = .error e ∨
     (∃ im0, openImage env (mkdirParents fs dest) src = .ok im0 ∧
       (env.removeFn (toRGBA (applyThumbnail msz im0)) = .error e ∨
        (∃ o, env.removeFn (toRGBA (applyThumbnail msz im0)) = .ok o ∧
          (normalizeOut env o = .error e ∨
           (∃ outIm, normalizeOut env o = .ok outIm ∧
             env.saveFail dest outIm = some e)))))))

/-! ### Theorems -/

/-- The `try:` body never sets the `skipped` flag. -/
theorem processBody_skipped (env : Env) (fs : FS) (src dest : FPath)
    (msz : Option Nat) : (processBody env fs src dest msz).skipped = false := by
  unfold processBody
  repeat' split
  all_goals rfl

/-- The `try:` body hands the backend at most the one normalized, optionally
resized image decoded from the source. -/
theorem processBody_invoked (env : Env) (fs : FS) (src dest : FPath)
    (msz : Option Nat) :
    (processBody env fs src dest msz).invoked = [] ∨
    ∃ im0, openImage env (mkdirParents fs dest) src = .ok im0 ∧
      (processBody env fs src dest msz).invoked = [toRGBA (applyThumbnail msz im0)] := by
  unfold processBody
  split
  · exact Or.inl rfl
  · split
    next hopen => exact Or.inl rfl
    next im0 hopen =>
      refine Or.inr ⟨im0, hopen, ?_⟩
      repeat' split
      all_goals rfl

/-- C1: for every work item (any source, destination, configuration and
collaborator behaviour, including failing backend or filesystem operations),
`process_one` returns an outcome and never raises; every step failure is
converted into a failure tuple carrying that step's message. -/
theorem claim_C1 (env : Env) (fs : FS) (src dest : FPath) (force : Bool)
    (msz : Option Nat) : C1Concl env fs src dest force msz := by
  unfold C1Concl processOne
  split
  · exact ⟨rfl, fun _ => rfl, fun h => Bool.noConfusion h⟩
  · unfold processBody
    split
    next e hm =>
      exact ⟨rfl, fun h => Bool.noConfusion h, fun _ => ⟨e, rfl, Or.inl hm⟩⟩
    next hm =>
      split
      next e hopen =>
        exact ⟨rfl, fun h => Bool.noConfusion h,
          fun _ => ⟨e, rfl, Or.inr (Or.inl hopen)⟩⟩
      next im0 hopen =>
        split
        next e hrem =>
          exact ⟨rfl, fun h => Bool.noConfusion h,
            fun _ => ⟨e, rfl, Or.inr (Or.inr ⟨im0, hopen, Or.inl hrem⟩)⟩⟩
        next o hrem =>
          split
          next e hnorm =>
            exact ⟨rfl, fun h => Bool.noConfusion h,
              fun _ => ⟨e, rfl, Or.inr (Or.inr ⟨im0, hopen,
                Or.inr ⟨o, hrem, Or.inl hnorm⟩⟩)⟩⟩
          next outIm hnorm =>
            split
            next e hsave =>
              exact ⟨rfl, fun h => Bool.noConfusion h,
                fun _ => ⟨e, rfl, Or.inr (Or.inr ⟨im0, hopen,
                  Or.inr ⟨o, hrem, Or.inr ⟨outIm, hnorm, hsave⟩⟩⟩)⟩⟩
            next hsave =>
              exact ⟨rfl, fun _ => rfl, fun h => Bool.noConfusion h⟩

/-- C4 counterexample: with the destination present as a directory (not a
file) and `force` false, the item is nevertheless skipped and reported a
success, because the code tests `output_file.exists()`, not "exists as a
file". -/
theorem claim_C4_cex :
    (processOne envBad fsDir srcW destW false none).skipped = true ∧
    (processOne envBad fsDir srcW destW false none).res.2.1 = true ∧
    destW ∉ fsDir.fileNames ∧ destW ∈ fsDir.dirs := by decide

/-- C4 (amended): the item is skipped iff the destination exists (as a file
or a directory) and `force` is false; on a skip the result is a success and
the backend is not invoked. -/
theorem claim_C4 (env : Env) (fs : FS) (src dest : FPath) (force : Bool)
    (msz : Option Nat) :
    ((processOne env fs src dest force msz).skipped = true ↔
       (fs.existsPath dest ∧ force = false)) ∧
    ((processOne env fs src dest force msz).skipped = true →
       (processOne env fs src dest force msz).res = (src, true, none) ∧
       (processOne env fs src dest force msz).invoked = []) := by
  unfold processOne
  split
  next h => exact ⟨iff_of_true rfl h, fun _ => ⟨rfl, rfl⟩⟩
  next h =>
    have hb := processBody_skipped env fs src dest msz
    constructor
    · rw [hb]; exact iff_of_false (fun hc => Bool.noConfusion hc) h
    · rw [hb]; exact fun hc => Bool.noConfusion hc

/-- With the destination file present and `force` false, `process_one` is
the skip success, for every environment. -/
theorem processOne_skipEq (env : Env) (fs : FS) (src dest : FPath)
    (msz : Option Nat) (h : dest ∈ fs.fileNames) :
    processOne env fs src dest false msz = ⟨(src, true, none), fs, [], true⟩ := by
  unfold processOne
  rw [if_pos ⟨Or.inl h, rfl⟩]

/-- C10: with the destination already present and `force` false,
`process_one` returns a success immediately: the filesystem is untouched,
the backend is not invoked, and the source file is never opened (the result
is the same for every decoder and even when the source is missing). -/
theorem claim_C10 (env : Env) (fs : FS) (src dest : FPath) (msz : Option Nat)
    (h : dest ∈ fs.fileNames) :
    processOne env fs src dest false msz = ⟨(src, true, none), fs, [], true⟩ :=
  processOne_skipEq env fs src dest msz h

/-- C10 witness: a destination that exists while the source is missing and
the decoder can only fail; the item is still reported a success. -/
theorem claim_C10_witness :
    lookupFile fsSkip srcW = none ∧
    processOne envBad fsSkip srcW destW false none =
      ⟨(srcW, true, none), fsSkip, [], true⟩ :=
  ⟨by decide, claim_C10 envBad fsSkip srcW destW none (by decide)⟩

/-- C3 counterexample: in recursive mode `rglob("*")` is filtered on the
suffix only, without an `is_file()` check, so a directory named `in/d.png`
is returned by discovery even though it is not a regular file. -/
theorem claim_C3_cex :
    [pc "in", pc "d.png"] ∈ list_images fsDisc [pc "in"] true ∧
    [pc "in", pc "d.png"] ∈ fsDisc.dirs ∧
    [pc "in", pc "d.png"] ∉ fsDisc.fileNames := by decide

/-- C3 (amended): discovery returns a sorted (lexicographic on path
components) list; in non-recursive mode it holds exactly the regular
immediate children of the root with a supported extension
(case-insensitively), but in recursive mode it holds every entry — regular
file or directory — strictly under the root with a supported extension. -/
theorem claim_C3 (fs : FS) (root : FPath) :
    (∀ recursive, (list_images fs root recursive).Sorted (· ≤ ·)) ∧
    (∀ p, p ∈ list_images fs root true ↔
       ((p ∈ fs.fileNames ∨ p ∈ fs.dirs) ∧ underRoot root p = true ∧ suffOK p = true)) ∧
    (∀ p, p ∈ list_images fs root false ↔
       (p ∈ fs.fileNames ∧ childOf root p = true ∧ suffOK p = true)) := by
  refine ⟨fun recursive => ?_, fun p => ?_, fun p => ?_⟩
  · cases recursive <;>
      simpa [list_images, psort] using List.sorted_insertionSort _ _
  · simp only [list_images, if_pos, psort, List.mem_insertionSort, List.mem_filter,
      List.mem_append, Bool.and_eq_true]
  · simp only [list_images, if_neg, psort, List.mem_insertionSort, List.mem_filter,
      Bool.and_eq_true, Bool.false_eq_true, ite_false]

/-- The reversed `".png"` tail pins the last dot three characters from the
end. -/
theorem findDot_gnp (r : List Char) :
    findDot ('g' :: 'n' :: 'p' :: '.' :: r) = some 3 := by
  simp +decide [findDot]

/-- Appending `".png"` to a nonempty name puts the suffix split exactly at
the original name's end. -/
theorem splitIdx_append_png (s : List Char) (hs : s ≠ []) :
    splitIdx (s ++ pc ".png") = some s.length := by
  have h1 : findDot (s ++ pc ".png").reverse = some 3 := by
    have hrev : (s ++ pc ".png").reverse = 'g' :: 'n' :: 'p' :: '.' :: s.reverse := by
      simp [pc, List.reverse_append]
    rw [hrev]
    exact findDot_gnp s.reverse
  have hlen : (s ++ pc ".png").length = s.length + 4 := by simp [pc]
  have hpos : 0 < s.length := List.length_pos.mpr hs
  have h2 : lastDotPos (s ++ pc ".png") = some s.length := by
    unfold lastDotPos
    rw [h1, hlen]
    simp only [Option.map_some']
    have he : s.length + 4 - 1 - 3 = s.length := by omega
    rw [he]
  unfold splitIdx
  rw [h2, hlen]
  show (if 0 < s.length ∧ s.length < s.length + 4 - 1 then some s.length else none) =
    some s.length
  rw [if_pos ⟨hpos, by omega⟩]

/-- `stem` of `s ++ ".png"` recovers `s` for nonempty `s`. -/
theorem stemOf_append_png (s : List Char) (hs : s ≠ []) :
    stemOf (s ++ pc ".png") = s := by
  unfold stemOf
  rw [splitIdx_append_png s hs]
  exact List.take_left s (pc ".png")

/-- The stem of a nonempty name is nonempty. -/
theorem stemOf_ne_nil (n : List Char) (hn : n ≠ []) : stemOf n ≠ [] := by
  unfold stemOf
  cases h : splitIdx n with
  | none => exact hn
  | some i =>
    have hi : 0 < i := by
      unfold splitIdx at h
      cases hl : lastDotPos n with
      | none => rw [hl] at h; exact absurd h (by simp)
      | some j =>
        rw [hl] at h
        have h2 : (if 0 < j ∧ j < n.length - 1 then some j else none) = some i := h
        by_cases hc : 0 < j ∧ j < n.length - 1
        · rw [if_pos hc] at h2
          exact (Option.some.inj h2) ▸ hc.1
        · rw [if_neg hc] at h2
          exact absurd h2 (by simp)
    intro hteq
    rcases List.take_eq_nil_iff.mp hteq with h0 | h0
    · omega
    · exact hn h0

/-- Replacing the suffix with `".png"` is idempotent on nonempty names. -/
theorem withSuffixName_png_idem (n : List Char) (hn : n ≠ []) :
    withSuffixName (withSuffixName n (pc ".png")) (pc ".png") =
      withSuffixName n (pc ".png") := by
  unfold withSuffixName
  rw [stemOf_append_png _ (stemOf_ne_nil n hn)]

/-- The last component of an append with a nonempty right part. -/
theorem lastName_append (p q : FPath) (hq : q ≠ []) :
    lastName (p ++ q) = lastName q := by
  unfold lastName
  rw [List.getLastD_eq_getLast?, List.getLastD_eq_getLast?,
    List.getLast?_append_of_ne_nil p hq]

/-- C5: in mirror mode the destination is the output root joined with the
source's path relative to the input root, with its extension replaced by
`.png` (the second `with_suffix` application of line 26 is idempotent); in
flatten mode it is the output root joined with the source's stem plus
`.png`, independently of the source's subdirectory depth. -/
theorem claim_C5 (src inD outD : FPath)
    (hpre : src.take inD.length = inD) (hlt : inD.length < src.length)
    (hname : lastName src ≠ []) :
    output_path_for src inD outD true =
      outD ++ withSuffixPath (relative_to src inD) (pc ".png") ∧
    output_path_for src inD outD false =
      outD ++ [stemOf (lastName src) ++ pc ".png"] := by
  constructor
  · have hrel : relative_to src inD ≠ [] := by
      unfold relative_to
      intro h
      have := List.drop_eq_nil_iff.mp h
      omega
    have hlast : lastName (relative_to src inD) = lastName src := by
      have hd : src.drop inD.length ≠ [] := hrel
      conv_rhs => rw [show src = src.take inD.length ++ src.drop inD.length from
        (List.take_append_drop _ _).symm]
      rw [lastName_append _ _ hd]
      rfl
    have hlname : lastName (relative_to src inD) ≠ [] := by rw [hlast]; exact hname
    have hne2 : (relative_to src inD).dropLast ++
        [withSuffixName (lastName (relative_to src inD)) (pc ".png")] ≠ [] := by simp
    simp only [output_path_for, if_true]
    unfold withSuffixPath
    rw [lastName_append outD _ hne2,
      lastName_append (relative_to src inD).dropLast _ (by simp),
      List.dropLast_append_of_ne_nil outD hne2, List.dropLast_concat]
    have hsingle :
        lastName [withSuffixName (lastName (relative_to src inD)) (pc ".png")] =
          withSuffixName (lastName (relative_to src inD)) (pc ".png") := rfl
    rw [hsingle, withSuffixName_png_idem _ hlname, List.append_assoc]
  · rfl

/-- C5 witness: a source one subdirectory deep under the input root. -/
theorem claim_C5_witness :
    output_path_for srcM inW outW true =
      outW ++ withSuffixPath (relative_to srcM inW) (pc ".png") ∧
    output_path_for srcM inW outW false =
      outW ++ [stemOf (lastName srcM) ++ pc ".png"] :=
  claim_C5 srcM inW outW (by decide) (by decide) (by decide)

/-- The rounding of PIL's `round_aspect` stays within one of the exact
value, is at least 1, and never exceeds the ceiling, whatever the
tie-breaking key. -/
theorem roundAspect_spec (v : ℚ) (key : ℤ → ℚ) (hv : 0 < v) :
    1 ≤ roundAspect v key ∧ roundAspect v key ≤ ⌈v⌉ ∧
      |(roundAspect v key : ℚ) - v| < 1 := by
  have hceil1 : 1 ≤ ⌈v⌉ := by
    have := Int.ceil_pos.mpr hv
    omega
  have hcases : (if key ⌊v⌋ ≤ key ⌈v⌉ then ⌊v⌋ else ⌈v⌉) = ⌊v⌋ ∨
      (if key ⌊v⌋ ≤ key ⌈v⌉ then ⌊v⌋ else ⌈v⌉) = ⌈v⌉ := by
    split
    · exact Or.inl rfl
    · exact Or.inr rfl
  unfold roundAspect
  set c := if key ⌊v⌋ ≤ key ⌈v⌉ then ⌊v⌋ else ⌈v⌉ with hcdef
  have hcle : c ≤ ⌈v⌉ := by
    rcases hcases with h | h <;> rw [h]
    exact Int.floor_le_ceil v
  refine ⟨le_max_right _ _, max_le hcle hceil1, ?_⟩
  rcases le_or_lt 1 c with h1 | h1
  · rw [max_eq_left h1]
    rcases hcases with h | h <;> rw [h]
    · have hf1 := Int.floor_le v
      have hf2 := Int.sub_one_lt_floor v
      rw [abs_sub_lt_iff]
      constructor <;> linarith
    · have hc1 := Int.le_ceil v
      have hc2 := Int.ceil_lt_add_one v
      rw [abs_sub_lt_iff]
      constructor <;> linarith
  · have hc0 : c ≤ 0 := by omega
    have hcf : c = ⌊v⌋ := by
      rcases hcases with h | h
      · exact h
      · exfalso
        rw [h] at hc0
        omega
    have hfl : (⌊v⌋ : ℚ) ≤ 0 := by
      have : ⌊v⌋ ≤ 0 := hcf ▸ hc0
      exact_mod_cast this
    have hv1 : v < 1 := by
      have := Int.lt_floor_add_one v
      linarith
    rw [max_eq_right (by omega : c ≤ 1)]
    rw [abs_sub_lt_iff]
    constructor <;> push_cast <;> linarith

/-- When both dimensions already fit, `thumbnail` leaves the image alone. -/
theorem thumbnailDims_id (w h D : Nat) (hsmall : w ≤ D ∧ h ≤ D) :
    thumbnailDims w h D = (w, h) := by
  unfold thumbnailDims
  rw [if_pos ⟨hsmall.1, hsmall.2⟩]

/-- When the image exceeds the bound, `thumbnail((D, D))` downscales: both
new dimensions are at most `D`, at most the originals, at least 1, and the
aspect ratio is preserved up to the integral rounding. -/
theorem thumbnailDims_le (w h D : Nat) (hw : 1 ≤ w) (hh : 1 ≤ h) (hD : 1 ≤ D)
    (hbig : ¬(w ≤ D ∧ h ≤ D)) :
    (thumbnailDims w h D).1 ≤ D ∧ (thumbnailDims w h D).2 ≤ D ∧
    (thumbnailDims w h D).1 ≤ w ∧ (thumbnailDims w h D).2 ≤ h ∧
    1 ≤ (thumbnailDims w h D).1 ∧ 1 ≤ (thumbnailDims w h D).2 ∧
    |((thumbnailDims w h D).1 : ℚ) * h - ((thumbnailDims w h D).2 : ℚ) * w| <
      max (h : ℚ) (w : ℚ) := by
  have hw0 : (0 : ℚ) < w := by exact_mod_cast hw
  have hh0 : (0 : ℚ) < h := by exact_mod_cast hh
  have hD0 : (0 : ℚ) < D := by exact_mod_cast hD
  have hDD : (D : ℚ) / (D : ℚ) = 1 := div_self (ne_of_gt hD0)
  unfold thumbnailDims
  rw [if_neg hbig]
  split
  next hcond =>
    -- tall-or-square branch: w ≤ h, height pinned to D
    rw [hDD] at hcond
    have hwh : w ≤ h := by
      have := (div_le_one hh0).mp hcond
      exact_mod_cast this
    have hDh : D < h := by
      rcases not_and_or.mp hbig with hx | hx
      · omega
      · omega
    set v : ℚ := (D : ℚ) * ((w : ℚ) / (h : ℚ)) with hvdef
    have hv : 0 < v := by positivity
    obtain ⟨h1, h2, h3⟩ := roundAspect_spec v (fun n => |(w : ℚ) / h - (n : ℚ) / D|) hv
    set x : ℤ := roundAspect v (fun n => |(w : ℚ) / h - (n : ℚ) / D|) with hxdef
    have hvD : v ≤ (D : ℚ) := by
      rw [hvdef]
      calc (D : ℚ) * ((w : ℚ) / h) ≤ (D : ℚ) * 1 := by
            apply mul_le_mul_of_nonneg_left _ (le_of_lt hD0)
            rw [div_le_one hh0]
            exact_mod_cast hwh
        _ = (D : ℚ) := mul_one _
    have hvw : v < (w : ℚ) := by
      rw [hvdef]
      have : (D : ℚ) * ((w : ℚ) / h) = (w : ℚ) * ((D : ℚ) / h) := by ring
      rw [this]
      calc (w : ℚ) * ((D : ℚ) / h) < (w : ℚ) * 1 := by
            apply mul_lt_mul_of_pos_left _ hw0
            rw [div_lt_one hh0]
            exact_mod_cast hDh
        _ = (w : ℚ) := mul_one _
    have hxD : x ≤ (D : ℤ) := le_trans h2 (Int.ceil_le.mpr (by exact_mod_cast hvD))
    have hxw : x ≤ (w : ℤ) :=
      le_trans h2 (Int.ceil_le.mpr (by exact_mod_cast le_of_lt hvw))
    have hx0 : 0 ≤ x := by omega
    have hxcast : ((x.toNat : Nat) : ℚ) = (x : ℚ) := by
      have hz := Int.toNat_of_nonneg hx0
      exact_mod_cast hz
    refine ⟨?_, le_refl D, ?_, le_of_lt hDh, ?_, hD, ?_⟩
    · omega
    · omega
    · omega
    · -- |x * h - D * w| < h ≤ max h w
      have hvh : v * (h : ℚ) = (D : ℚ) * w := by
        rw [hvdef]
        field_simp
    -- goal after the projections reduce
      have habs : |(x : ℚ) * h - (D : ℚ) * w| < (h : ℚ) := by
        rw [← hvh, ← sub_mul, abs_mul, abs_of_pos hh0]
        calc |(x : ℚ) - v| * h < 1 * h := by
              exact mul_lt_mul_of_pos_right h3 hh0
          _ = (h : ℚ) := one_mul _
      calc |((x.toNat : Nat) : ℚ) * h - ((D : Nat) : ℚ) * w| =
            |(x : ℚ) * h - (D : ℚ) * w| := by rw [hxcast]
        _ < (h : ℚ) := habs
        _ ≤ max (h : ℚ) (w : ℚ) := le_max_left _ _
  next hcond =>
    -- wide branch: h < w, width pinned to D
    rw [hDD] at hcond
    have hhw : h < w := by
      have h2 : ¬ ((w : ℚ) / h ≤ 1) := hcond
      rw [div_le_one hh0] at h2
      have : ¬ ((w : ℚ) ≤ h) := h2
      have := lt_of_not_le this
      exact_mod_cast this
    have hDw : D < w := by
      rcases not_and_or.mp hbig with hx | hx
      · omega
      · omega
    set v : ℚ := (D : ℚ) / ((w : ℚ) / (h : ℚ)) with hvdef
    have hvalt : v = (D : ℚ) * ((h : ℚ) / (w : ℚ)) := by
      rw [hvdef]
      field_simp
    have hv : 0 < v := by rw [hvalt]; positivity
    obtain ⟨h1, h2, h3⟩ := roundAspect_spec v
      (fun n => if n = 0 then 0 else |(w : ℚ) / h - (D : ℚ) / (n : ℚ)|) hv
    set y : ℤ := roundAspect v
      (fun n => if n = 0 then 0 else |(w : ℚ) / h - (D : ℚ) / (n : ℚ)|) with hydef
    have hvD : v ≤ (D : ℚ) := by
      rw [hvalt]
      calc (D : ℚ) * ((h : ℚ) / w) ≤ (D : ℚ) * 1 := by
            apply mul_le_mul_of_nonneg_left _ (le_of_lt hD0)
            rw [div_le_one hw0]
            exact_mod_cast le_of_lt hhw
        _ = (D : ℚ) := mul_one _
    have hvh : v < (h : ℚ) := by
      rw [hvalt]
      have : (D : ℚ) * ((h : ℚ) / w) = (h : ℚ) * ((D : ℚ) / w) := by ring
      rw [this]
      calc (h : ℚ) * ((D : ℚ) / w) < (h : ℚ) * 1 := by
            apply mul_lt_mul_of_pos_left _ hh0
            rw [div_lt_one hw0]
            exact_mod_cast hDw
        _ = (h : ℚ) := mul_one _
    have hyD : y ≤ (D : ℤ) := le_trans h2 (Int.ceil_le.mpr (by exact_mod_cast hvD))
    have hyh : y ≤ (h : ℤ) :=
      le_trans h2 (Int.ceil_le.mpr (by exact_mod_cast le_of_lt hvh))
    have hy0 : 0 ≤ y := by omega
    have hycast : ((y.toNat : Nat) : ℚ) = (y : ℚ) := by
      have hz := Int.toNat_of_nonneg hy0
      exact_mod_cast hz
    refine ⟨le_refl D, ?_, le_of_lt hDw, ?_, hD, ?_, ?_⟩
    · omega
    · omega
    · omega
    · have hvw : v * (w : ℚ) = (D : ℚ) * h := by
        rw [hvalt]
        field_simp
      have habs : |((D : ℚ)) * h - (y : ℚ) * w| < (w : ℚ) := by
        rw [← hvw, ← sub_mul, abs_mul, abs_of_pos hw0]
        calc |v - (y : ℚ)| * w < 1 * w := by
              apply mul_lt_mul_of_pos_right _ hw0
              rw [abs_sub_comm]
              exact h3
          _ = (w : ℚ) := one_mul _
      calc |((D : Nat) : ℚ) * h - ((y.toNat : Nat) : ℚ) * w| =
            |((D : ℚ)) * h - (y : ℚ) * w| := by rw [hycast]
        _ < (w : ℚ) := habs
        _ ≤ max (h : ℚ) (w : ℚ) := le_max_right _ _

/-- `convert("RGBA")` never changes the pixel dimensions. -/
theorem toRGBA_width (im : Image) : (toRGBA im).width = im.width := by
  unfold toRGBA
  split <;> rfl

/-- `convert("RGBA")` never changes the pixel dimensions. -/
theorem toRGBA_height (im : Image) : (toRGBA im).height = im.height := by
  unfold toRGBA
  split <;> rfl

/-- With a nonzero `max_size` the resize step applies `thumbnail`'s
dimensions. -/
theorem applyThumbnail_some (D : Nat) (hD : D ≠ 0) (im : Image) :
    applyThumbnail (some D) im =
      { im with width := (thumbnailDims im.width im.height D).1,
                height := (thumbnailDims im.width im.height D).2 } := by
  unfold applyThumbnail
  show (if D ≠ 0 then
      { im with width := (thumbnailDims im.width im.height D).1,
                height := (thumbnailDims im.width im.height D).2 } else im) = _
  rw [if_pos hD]

/-- `process_one` hands the backend at most the one normalized, optionally
resized image decoded from the source file. -/
theorem processOne_invoked (env : Env) (fs : FS) (src dest : FPath)
    (force : Bool) (msz : Option Nat) :
    (processOne env fs src dest force msz).invoked = [] ∨
    ∃ im0, openImage env (mkdirParents fs dest) src = .ok im0 ∧
      (processOne env fs src dest force msz).invoked =
        [toRGBA (applyThumbnail msz im0)] := by
  unfold processOne
  split
  · exact Or.inl rfl
  · exact processBody_invoked env fs src dest msz

/-- C7: the image handed to the backend is the decoded source image, resized
only when `max_size = D` is set and a dimension exceeds `D`; then neither
resulting dimension exceeds `D` or its original value, and the aspect ratio
is preserved up to rounding; a source already within the bound, or a run
without `max_size`, keeps its dimensions. -/
theorem claim_C7 (env : Env) (fs : FS) (src dest : FPath) (force : Bool)
    (msz : Option Nat) (img im0 : Image)
    (hmem : img ∈ (processOne env fs src dest force msz).invoked)
    (him0 : openImage env (mkdirParents fs dest) src = Except.ok im0)
    (hw : 1 ≤ im0.width) (hh : 1 ≤ im0.height) :
    (msz = none → img.width = im0.width ∧ img.height = im0.height) ∧
    (∀ D, msz = some D → 1 ≤ D →
      ((im0.width ≤ D ∧ im0.height ≤ D) →
         img.width = im0.width ∧ img.height = im0.height) ∧
      (¬(im0.width ≤ D ∧ im0.height ≤ D) →
         img.width ≤ D ∧ img.height ≤ D ∧
         img.width ≤ im0.width ∧ img.height ≤ im0.height ∧
         |(img.width : ℚ) * im0.height - (img.height : ℚ) * im0.width| <
           max (im0.height : ℚ) (im0.width : ℚ))) := by
  rcases processOne_invoked env fs src dest force msz with hnil | ⟨im1, hopen1, hinv⟩
  · rw [hnil] at hmem
    exact absurd hmem (List.not_mem_nil _)
  have him : im1 = im0 := by
    rw [him0] at hopen1
    exact (Except.ok.inj hopen1).symm
  subst him
  rw [hinv] at hmem
  have himg : img = toRGBA (applyThumbnail msz im1) := by simpa using hmem
  subst himg
  constructor
  · rintro rfl
    exact ⟨toRGBA_width _, toRGBA_height _⟩
  · rintro D rfl hD1
    have hDne : D ≠ 0 := by omega
    rw [applyThumbnail_some D hDne im1]
    constructor
    · intro hsmall
      rw [thumbnailDims_id im1.width im1.height D hsmall]
      rw [toRGBA_width, toRGBA_height]
      exact ⟨rfl, rfl⟩
    · intro hbig
      obtain ⟨t1, t2, t3, t4, t5, t6, t7⟩ :=
        thumbnailDims_le im1.width im1.height D hw hh hD1 hbig
      rw [toRGBA_width, toRGBA_height]
      exact ⟨t1, t2, t3, t4, t7⟩

/-- C7 witness: an 8x2 source under bound 4; the recorded backend input
satisfies every bound of the claim. -/
theorem claim_C7_witness :
    ((some 4 : Option Nat) = none →
       imgW7.width = im0W7.width ∧ imgW7.height = im0W7.height) ∧
    (∀ D, (some 4 : Option Nat) = some D → 1 ≤ D →
      ((im0W7.width ≤ D ∧ im0W7.height ≤ D) →
         imgW7.width = im0W7.width ∧ imgW7.height = im0W7.height) ∧
      (¬(im0W7.width ≤ D ∧ im0W7.height ≤ D) →
         imgW7.width ≤ D ∧ imgW7.height ≤ D ∧
         imgW7.width ≤ im0W7.width ∧ imgW7.height ≤ im0W7.height ∧
         |(imgW7.width : ℚ) * im0W7.height - (imgW7.height : ℚ) * im0W7.width| <
           max (im0W7.height : ℚ) (im0W7.width : ℚ))) :=
  claim_C7 envWide fsProc srcW destW false (some 4) imgW7 im0W7
    (List.mem_singleton_self _) rfl (by decide) (by decide)

/-- One result tuple per submitted item. -/
theorem runBatch_length (env : Env) (force : Bool) (msz : Option Nat) :
    ∀ (items : List (FPath × FPath)) (fs : FS),
      (runBatch env force msz fs items).2.length = items.length := by
  intro items
  induction items with
  | nil => intro fs; rfl
  | cons it rest ih =>
      intro fs
      simp only [runBatch, List.length_cons]
      rw [ih]

/-- Every result is counted exactly once, as a success or as a failure. -/
theorem count_split (rs : List POut) : countOk rs + countFail rs = rs.length := by
  unfold countOk countFail
  induction rs with
  | nil => rfl
  | cons r rest ih =>
      cases hb : r.res.2.1 <;>
        simp only [List.countP_cons, hb, List.length_cons, Bool.not_true,
          Bool.not_false, if_pos, if_neg, Bool.false_eq_true, ite_false,
          ite_true] <;>
        omega

/-- C2: a finished batch carries exactly one outcome per discovered file and
its success and failure counters add up to the discovered count, however
many items failed. -/
theorem claim_C2 (env : Env) (fs : FS) (inD outD : FPath)
    (recursive keep force : Bool) (msz : Option Nat) :
    C2Post (main env fs inD outD recursive keep force msz) := by
  unfold main
  split
  · trivial
  · split
    · trivial
    · split
      · trivial
      · dsimp only
        split
        · trivial
        · exact ⟨by rw [runBatch_length]; exact List.length_map _ _,
            by rw [count_split, runBatch_length]; exact List.length_map _ _⟩

/-- `mkdir` only records directories: the regular files are untouched. -/
theorem mkdirAll_files (fs : FS) (p : FPath) : (mkdirAll fs p).files = fs.files := by
  unfold mkdirAll
  generalize ancestorsOf p = ds
  induction ds generalizing fs with
  | nil => rfl
  | cons d rest ih =>
      rw [List.foldl_cons, ih]
      unfold addDir
      split <;> rfl

/-- C9: a missing or non-directory input root ends the run at the argument
check with the filesystem untouched, and a failing backend-session
initialization ends it right after the output `mkdir`, before discovery;
in both cases no per-item work happens (the early results carry no
outcomes and no output file is written). -/
theorem claim_C9 (env : Env) (fs : FS) (inD outD : FPath)
    (recursive keep force : Bool) (msz : Option Nat) :
    (¬(fs.existsPath inD ∧ inD ∈ fs.dirs) →
       main env fs inD outD recursive keep force msz = (.badInput, fs)) ∧
    (∀ e, fs.existsPath inD → inD ∈ fs.dirs → env.mkdirFail outD = none →
       env.newSession = .error e →
       main env fs inD outD recursive keep force msz =
         (.sessionFail e, mkdirAll fs outD) ∧
       (mkdirAll fs outD).files = fs.files) := by
  constructor
  · intro h
    unfold main
    rw [if_pos h]
  · intro e h1 h2 hmk hsess
    refine ⟨?_, mkdirAll_files fs outD⟩
    unfold main
    rw [if_neg (not_not_intro ⟨h1, h2⟩), hmk, hsess]

/-- What `normalizeOut` guarantees on a success: the persisted image is the
RGBA conversion of the backend result, in either of its two shapes. -/
theorem normalizeOut_spec (env : Env) (o : RemovalOut) (outIm : Image)
    (h : normalizeOut env o = .ok outIm) :
    outIm.mode = "RGBA" ∧
    (∀ b, o = .raw b → ∃ ib, env.decodeBytes b = .ok ib ∧ outIm = forceRGBA ib) ∧
    (∀ i, o = .img i → outIm = forceRGBA i) := by
  cases o with
  | raw b =>
      have hb : (match env.decodeBytes b with
          | Except.error e => (Except.error e : Except String Image)
          | Except.ok ib => Except.ok (forceRGBA ib)) = Except.ok outIm := h
      cases hdb : env.decodeBytes b with
      | error e =>
          rw [hdb] at hb
          exact absurd hb (by simp)
      | ok ib =>
          rw [hdb] at hb
          have h2 : Except.ok (ε := String) (forceRGBA ib) = Except.ok outIm := hb
          have h3 := Except.ok.inj h2
          refine ⟨by rw [← h3]; rfl, ?_, ?_⟩
          · rintro b2 heq
            injection heq with hb
            subst hb
            exact ⟨ib, hdb, h3.symm⟩
          · rintro i heq
            exact absurd heq (by simp)
  | img i =>
      have h2 : Except.ok (ε := String) (forceRGBA i) = Except.ok outIm := h
      have h3 := Except.ok.inj h2
      refine ⟨by rw [← h3]; rfl, ?_, ?_⟩
      · rintro b heq
        exact absurd heq (by simp)
      · rintro i2 heq
        injection heq with hi
        subst hi
        exact h3.symm

/-- C8: a processed (non-skipped) item that succeeds has normalized the
backend's bimodal return to a decoded RGBA image and written its PNG
encoding at exactly the destination path. -/
theorem claim_C8 (env : Env) (fs : FS) (src dest : FPath) (force : Bool)
    (msz : Option Nat)
    (hskip : (processOne env fs src dest force msz).skipped = false)
    (hsucc : (processOne env fs src dest force msz).res.2.1 = true) :
    C8Post env fs src dest force msz := by
  have hc : ¬(fs.existsPath dest ∧ force = false) := by
    intro hc
    unfold processOne at hskip
    rw [if_pos hc] at hskip
    exact Bool.noConfusion hskip
  have hbody : processOne env fs src dest force msz =
      processBody env fs src dest msz := by
    unfold processOne
    rw [if_neg hc]
  rw [hbody] at hsucc
  unfold processBody at hsucc
  split at hsucc
  next e hmk => simp at hsucc
  next hmk =>
    split at hsucc
    next e hop => simp at hsucc
    next im0 hop =>
      split at hsucc
      next e hrem => simp at hsucc
      next o hrem =>
        split at hsucc
        next e hnorm => simp at hsucc
        next outIm hnorm =>
          split at hsucc
          next e hsave => simp at hsucc
          next hsave =>
            obtain ⟨hm, hraw, himg⟩ := normalizeOut_spec env o outIm hnorm
            have heq : processOne env fs src dest force msz =
                ⟨(src, true, none),
                 addFile (mkdirParents fs dest) dest (env.encodePNG outIm),
                 [toRGBA (applyThumbnail msz im0)], false⟩ := by
              rw [hbody]
              unfold processBody
              simp only [hmk, hop, hrem, hnorm, hsave]
            unfold C8Post
            rw [heq]
            exact ⟨toRGBA (applyThumbnail msz im0), o, outIm, rfl, hrem, hnorm,
              hm, hraw, himg, rfl, List.mem_cons_self _ _⟩

/-- C8 witness: a full successful run through the raw-bytes backend shape. -/
theorem claim_C8_witness : C8Post envOk fsProc srcW destW false none :=
  claim_C8 envOk fsProc srcW destW false none (by decide) (by decide)

/-- New files only accumulate: an existing file name survives `addFile`. -/
theorem addFile_fileNames_mono (fs : FS) (q : FPath) (c : Nat) (p : FPath)
    (h : p ∈ fs.fileNames) : p ∈ (addFile fs q c).fileNames := by
  by_cases hpq : p = q
  · subst hpq
    unfold addFile FS.fileNames
    simp
  · unfold FS.fileNames at h
    obtain ⟨e, he, hep⟩ := List.mem_map.mp h
    unfold addFile FS.fileNames
    simp only [List.map_cons, List.mem_cons]
    right
    refine List.mem_map.mpr ⟨e, List.mem_filter.mpr ⟨he, ?_⟩, hep⟩
    simp only [decide_eq_true_eq]
    rw [hep]
    exact hpq
  -- the overwritten entry keeps its path at the head in the first case

/-- `process_one` never removes a file: file names are monotone. -/
theorem processOne_files_mono (env : Env) (fs : FS) (src dest : FPath)
    (force : Bool) (msz : Option Nat) (p : FPath) (h : p ∈ fs.fileNames) :
    p ∈ (processOne env fs src dest force msz).fs.fileNames := by
  have hmkd : (mkdirParents fs dest).fileNames = fs.fileNames := by
    unfold FS.fileNames
    rw [show (mkdirParents fs dest).files = fs.files from mkdirAll_files fs _]
  unfold processOne
  split
  · exact h
  · unfold processBody
    repeat' split
    · exact h
    · rw [hmkd]; exact h
    · rw [hmkd]; exact h
    · rw [hmkd]; exact h
    · rw [hmkd]; exact h
    · exact addFile_fileNames_mono _ dest _ p (by rw [hmkd]; exact h)

/-- `runBatch` never removes a file. -/
theorem runBatch_files_mono (env : Env) (force : Bool) (msz : Option Nat) :
    ∀ (items : List (FPath × FPath)) (fs : FS) (p : FPath),
      p ∈ fs.fileNames → p ∈ (runBatch env force msz fs items).1.fileNames := by
  intro items
  induction items with
  | nil => intro fs p h; exact h
  | cons it rest ih =>
      intro fs p h
      simp only [runBatch]
      exact ih _ p (processOne_files_mono env fs it.1 it.2 force msz p h)

/-- Along a `force = false` batch over a filesystem that already holds a
superset of the reference file set, every item whose destination is in the
reference set is skipped as a success without invoking the backend. -/
theorem runBatch_zip_skip (env : Env) (msz : Option Nat) :
    ∀ (items : List (FPath × FPath)) (fs1 fs : FS),
      (∀ p, p ∈ fs1.fileNames → p ∈ fs.fileNames) →
      ∀ pr ∈ items.zip (runBatch env false msz fs items).2,
        pr.1.2 ∈ fs1.fileNames →
        pr.2.skipped = true ∧ pr.2.res = (pr.1.1, true, none) ∧
          pr.2.invoked = [] := by
  intro items
  induction items with
  | nil => intro fs1 fs hsub pr hpr; exact absurd hpr (List.not_mem_nil _)
  | cons it rest ih =>
      intro fs1 fs hsub pr hpr hdest
      simp only [runBatch, List.zip_cons_cons, List.mem_cons] at hpr
      rcases hpr with rfl | hpr
      · have hskip := processOne_skipEq env fs it.1 it.2 msz (hsub _ hdest)
        rw [hskip]
        exact ⟨rfl, rfl, rfl⟩
      · refine ih fs1 (processOne env fs it.1 it.2 false msz).fs ?_ pr hpr hdest
        intro p hp
        exact processOne_files_mono env fs it.1 it.2 false msz p (hsub p hp)

/-- A `force = false` batch whose destinations all exist already leaves the
filesystem exactly as it was. -/
theorem runBatch_allskip (env : Env) (msz : Option Nat) :
    ∀ (items : List (FPath × FPath)) (fs : FS),
      (∀ it ∈ items, it.2 ∈ fs.fileNames) →
      (runBatch env false msz fs items).1 = fs := by
  intro items
  induction items with
  | nil => intro fs _; rfl
  | cons it rest ih =>
      intro fs hall
      simp only [runBatch]
      rw [processOne_skipEq env fs it.1 it.2 msz (hall it (List.mem_cons_self _ _))]
      exact ih fs (fun it2 h2 => hall it2 (List.mem_cons_of_mem _ h2))

/-- C6: running the same batch again with `force = false` over the
filesystem the first run produced: every item whose output file the first
run left on disk is skipped and reported a success without re-invoking the
backend, and when that holds of all items the second run changes nothing —
the output file set is identical. -/
theorem claim_C6 (env : Env) (fs0 fs1 : FS) (items : List (FPath × FPath))
    (msz : Option Nat)
    (hfs1 : fs1 = (runBatch env false msz fs0 items).1) :
    (∀ pr ∈ items.zip (runBatch env false msz fs1 items).2,
       pr.1.2 ∈ fs1.fileNames →
       pr.2.skipped = true ∧ pr.2.res = (pr.1.1, true, none) ∧
         pr.2.invoked = []) ∧
    ((∀ it ∈ items, it.2 ∈ fs1.fileNames) →
       (runBatch env false msz fs1 items).1 = fs1) := by
  constructor
  · exact runBatch_zip_skip env msz items fs1 fs1 (fun p hp => hp)
  · exact runBatch_allskip env msz items fs1

/-- C6 witness: a one-item batch over the filesystem its own first run
produced. -/
theorem claim_C6_witness :
    (∀ pr ∈ [(srcW, destW)].zip
        (runBatch envOk false none
          (runBatch envOk false none fsProc [(srcW, destW)]).1 [(srcW, destW)]).2,
       pr.1.2 ∈ (runBatch envOk false none fsProc [(srcW, destW)]).1.fileNames →
       pr.2.skipped = true ∧ pr.2.res = (pr.1.1, true, none) ∧
         pr.2.invoked = []) ∧
    ((∀ it ∈ [(srcW, destW)],
        it.2 ∈ (runBatch envOk false none fsProc [(srcW, destW)]).1.fileNames) →
       (runBatch envOk false none
          (runBatch envOk false none fsProc [(srcW, destW)]).1 [(srcW, destW)]).1 =
         (runBatch envOk false none fsProc [(srcW, destW)]).1) :=
  claim_C6 envOk fsProc (runBatch envOk false none fsProc [(srcW, destW)]).1
    [(srcW, destW)] none rfl

end RB
